import Mathlib

/-!
Shallow embedding of the Uniswap pool tracker's core logic
(src/frontend/src/utils.js, with the legacy dragger of src/frontend/src/App.jsx),
together with theorems settling the spec's claims about it.

JavaScript numbers are modelled as rationals for the finite values plus a
single marker for the non-finite ones (NaN, Infinity, -Infinity, and null
coerced through Number): every code path embedded here guards with
Number.isFinite before doing arithmetic or comparisons, so no embedded
branch ever distinguishes among the non-finite values.
-/

namespace UniswapTracker

/-- A JavaScript number as the tracker observes it: a finite value (a
rational) or a non-finite one. -/
inductive JsNum where
  | fin (q : ℚ)
  | nonfinite
deriving DecidableEq, Repr

/-- Number.isFinite on the embedded numbers. -/
def JsNum.isFinite : JsNum → Bool
  | .fin _ => true
  | .nonfinite => false

/-- utils.js line 44: const clamp = (v, lo, hi) => Math.max(lo, Math.min(hi, v)). -/
def clamp (v lo hi : ℚ) : ℚ := max lo (min hi v)

/-- The controller state: the two bound values owned by the component
(upperValue / lowerValue React state, mirrored into the chart's two line
objects). -/
structure Bounds where
  lower : ℚ
  upper : ℚ
deriving DecidableEq, Repr

/-- utils.js lines 361-362: useState(1000) for the upper bound and
useState(-1000) for the lower bound. -/
def initBounds : Bounds := { lower := -1000, upper := 1000 }

/-- utils.js lines 161-178, the mousemove branch of
rangeAndCursorPlugin.afterEvent while the Upper Bound line is dragged:
the pointer-derived candidate is clamped to the visible axis range
(yScale.min / yScale.max), then the dragged value becomes
Math.max(newVal, lower.value). -/
def dragUpperMove (s : Bounds) (cand axisMin axisMax : ℚ) : Bounds :=
  { s with upper := max (clamp cand axisMin axisMax) s.lower }

/-- utils.js lines 161-178, the same branch while the Lower Bound line is
dragged: the dragged value becomes Math.min(newVal, upper.value). -/
def dragLowerMove (s : Bounds) (cand axisMin axisMax : ℚ) : Bounds :=
  { s with lower := min (clamp cand axisMin axisMax) s.upper }

/-- utils.js lines 545-549, applyUpper: the typed text is parsed to a
number (parsing is abstracted as a JsNum argument); a non-finite parse is
a no-op, otherwise setUpperValue(Math.max(n, lowerValue)). -/
def applyUpper (raw : JsNum) (s : Bounds) : Bounds :=
  match raw with
  | .fin n => { s with upper := max n s.lower }
  | .nonfinite => s

/-- utils.js lines 551-555, applyLower: a non-finite parse is a no-op,
otherwise setLowerValue(Math.min(n, upperValue)). -/
def applyLower (raw : JsNum) (s : Bounds) : Bounds :=
  match raw with
  | .fin n => { s with lower := min n s.upper }
  | .nonfinite => s

/-- utils.js lines 419-424: on the first successful hourly load the bounds
are seeded from the latest price, setLowerValue(last * 0.95) and
setUpperValue(last * 1.05). -/
def seedBounds (price : ℚ) (_s : Bounds) : Bounds :=
  { lower := price * (95 / 100), upper := price * (105 / 100) }

/-- utils.js lines 557-563, handleReset: a no-op unless the current price
is a finite number (it is null until the hourly series loads, modelled as
Option), otherwise both bounds are replaced by price*0.95 and price*1.05. -/
def handleReset (currentPrice : Option ℚ) (s : Bounds) : Bounds :=
  match currentPrice with
  | some p => { lower := p * (95 / 100), upper := p * (105 / 100) }
  | none => s

/-- One bound-updating event of the controller. -/
inductive Ev where
  | dragUpper (cand axisMin axisMax : ℚ)
  | dragLower (cand axisMin axisMax : ℚ)
  | inputUpper (raw : JsNum)
  | inputLower (raw : JsNum)
  | seed (price : ℚ)
  | reset (price : Option ℚ)

/-- The controller's transition function over bound-updating events. -/
def step (s : Bounds) : Ev → Bounds
  | .dragUpper c mn mx => dragUpperMove s c mn mx
  | .dragLower c mn mx => dragLowerMove s c mn mx
  | .inputUpper raw => applyUpper raw s
  | .inputLower raw => applyLower raw s
  | .seed p => seedBounds p s
  | .reset cp => handleReset cp s

/-- The controller state after a sequence of events from the initial state. -/
def run (evs : List Ev) : Bounds := evs.foldl step initBounds

/-- The data contract of the price series (spec data model: price is a
positive real): a seed or reset event carries a non-negative price. -/
def Ev.priceNonneg : Ev → Bool
  | .seed p => decide (0 ≤ p)
  | .reset (some p) => decide (0 ≤ p)
  | _ => true

/-- A liquidity tick as loaded from ticks.json (utils.js lines 474-485):
the two price fields are raw numbers re-checked for finiteness by
tickOverlapsRange; usdValue is only ever read after the load-time filter
keeps all-finite records, so it is embedded as a rational. -/
structure Tick where
  priceLowerUSD : JsNum
  priceUpperUSD : JsNum
  usdValue : ℚ
deriving DecidableEq, Repr

/-- utils.js lines 341-348, tickOverlapsRange: false if either price field
is non-finite; otherwise the unordered interval is normalized with min/max
and the tick overlaps iff hi >= rangeLo && lo <= rangeHi. -/
def tickOverlapsRange (tick : Tick) (rangeLo rangeHi : ℚ) : Bool :=
  match tick.priceLowerUSD, tick.priceUpperUSD with
  | .fin pl, .fin pu => decide (rangeLo ≤ max pl pu ∧ min pl pu ≤ rangeHi)
  | _, _ => false

/-- utils.js lines 334-338, normalizeRange: lo = Math.min(a, b),
hi = Math.max(a, b). -/
def normalizeRange (a b : ℚ) : ℚ × ℚ := (min a b, max a b)

/-- utils.js lines 565-576, totalLiquidityInRange: normalizes the bounds,
returns null when the tick list is empty, otherwise sums usdValue over the
ticks that overlap the normalized range. The source's Number.isFinite
guards on lo, hi and on the final sum are identically true in the rational
embedding (the bounds are controller state, finite by construction, and a
finite sum of rationals is finite). -/
def totalLiquidityInRange (ticksAll : List Tick) (lowerValue upperValue : ℚ) :
    Option ℚ :=
  let lh := normalizeRange lowerValue upperValue
  if ticksAll.isEmpty then none
  else
    some (ticksAll.foldl
      (fun sum t => if tickOverlapsRange t lh.1 lh.2 then sum + t.usdValue else sum) 0)

/-- A raw daily record as feesSummary reads it (ts and feesUSD may each be
non-finite; such records are dropped by the filter). -/
structure DailyRec where
  ts : JsNum
  feesUSD : JsNum
deriving DecidableEq, Repr

/-- A fee record with both fields finite, as kept by feesSummary's filter. -/
structure FeeEntry where
  ts : ℚ
  feesUSD : ℚ
deriving DecidableEq, Repr

/-- utils.js lines 500-502: map each daily record to ts/feesUSD and keep it
only when both are finite. -/
def toFeeEntry (d : DailyRec) : Option FeeEntry :=
  match d.ts, d.feesUSD with
  | .fin t, .fin f => some { ts := t, feesUSD := f }
  | _, _ => none

/-- utils.js lines 510-514, sumLastN: fees.slice(-n) keeps the trailing n
records by position (all of them when fewer than n exist), then reduces
with addition from 0. The final Number.isFinite check on the sum is
identically true over rationals. -/
def sumLastN (fees : List FeeEntry) (n : ℕ) : ℚ :=
  ((fees.drop (fees.length - n)).map (·.feesUSD)).sum

/-- The fee summary (null fields modelled as none). -/
structure FeesSummary where
  last1d : Option ℚ
  last7d : Option ℚ
  last30d : Option ℚ
deriving DecidableEq, Repr

/-- utils.js lines 499-521, feesSummary: filter to finite records; all
fields null when none remain; otherwise last1d is the last record's
feesUSD and last7d/last30d are sumLastN 7 and sumLastN 30. -/
def feesSummary (dailyAll : List DailyRec) : FeesSummary :=
  let fees := dailyAll.filterMap toFeeEntry
  if fees.isEmpty then { last1d := none, last7d := none, last30d := none }
  else
    { last1d := (fees.getLast?).map (·.feesUSD)
      last7d := some (sumLastN fees 7)
      last30d := some (sumLastN fees 30) }

/-- The three raw estimator outputs of handleCalculate before display
formatting (weeklyEst, dailyEst, aprPct). -/
structure EstimateResult where
  weeklyFeesUSD : ℚ
  dailyFeesUSD : ℚ
  aprPercent : ℚ
deriving DecidableEq, Repr

/-- utils.js lines 578-611, handleCalculate: deposit is the parsed deposit
text, L the (possibly null) aggregate, fees7 the (possibly null) last7d
summary field; null inputs are non-finite under Number.isFinite. Any
precondition violation sets all three displayed fields to the placeholder,
modelled as none; otherwise weeklyEst = deposit / L * fees7,
dailyEst = weeklyEst / 7, aprPct = fees7 / L * 52 * 100. -/
def handleCalculate (deposit L fees7 : JsNum) : Option EstimateResult :=
  match deposit with
  | .nonfinite => none
  | .fin d =>
    if d ≤ 0 then none
    else
      match L with
      | .nonfinite => none
      | .fin l =>
        if l ≤ 0 then none
        else
          match fees7 with
          | .nonfinite => none
          | .fin f =>
            if f < 0 then none
            else
              let weeklyEst := d / l * f
              let dailyEst := weeklyEst / 7
              let aprPct := f / l * 52 * 100
              some { weeklyFeesUSD := weeklyEst, dailyFeesUSD := dailyEst,
                     aprPercent := aprPct }

/-- App.jsx lines 59-65, the lowerLine branch of draggerPlugin.afterEvent:
when the global upper price is set and the candidate reaches it, the new
lower value becomes globalUpperPrice - 0.01; no axis clamp is applied. -/
def draggerLowerMove (newPrice : ℚ) (globalUpperPrice : Option ℚ) : ℚ :=
  match globalUpperPrice with
  | some u => if u ≤ newPrice then u - 1 / 100 else newPrice
  | none => newPrice

/-- App.jsx lines 66-73, the upperLine branch of draggerPlugin.afterEvent:
when the global lower price is set and the candidate reaches it, the new
upper value becomes globalLowerPrice + 0.01; no axis clamp is applied. -/
def draggerUpperMove (newPrice : ℚ) (globalLowerPrice : Option ℚ) : ℚ :=
  match globalLowerPrice with
  | some l => if newPrice ≤ l then l + 1 / 100 else newPrice
  | none => newPrice

/-- C9: reset, whenever price data is loaded with latest price p, sets the
bounds to exactly p*0.95 and p*1.05 regardless of the prior state; it is
idempotent; and with no price data loaded it leaves the bounds unchanged. -/
theorem handleReset_exact_and_idempotent :
    (∀ (p : ℚ) (s : Bounds),
      handleReset (some p) s =
        { lower := p * (95 / 100), upper := p * (105 / 100) }) ∧
    (∀ (cp : Option ℚ) (s : Bounds),
      handleReset cp (handleReset cp s) = handleReset cp s) ∧
    (∀ s : Bounds, handleReset none s = s) := by
  refine ⟨fun p s => rfl, fun cp s => ?_, fun s => rfl⟩
  cases cp <;> rfl

/-- C10: each bound update touches only its own bound: an upper drag never
changes the lower value, a lower drag never changes the upper value, typed
input to one bound leaves the other unchanged, and a non-finite typed
input is a complete no-op on the whole state. -/
theorem bound_updates_touch_only_target :
    (∀ (s : Bounds) (c mn mx : ℚ), (dragUpperMove s c mn mx).lower = s.lower) ∧
    (∀ (s : Bounds) (c mn mx : ℚ), (dragLowerMove s c mn mx).upper = s.upper) ∧
    (∀ (raw : JsNum) (s : Bounds), (applyUpper raw s).lower = s.lower) ∧
    (∀ (raw : JsNum) (s : Bounds), (applyLower raw s).upper = s.upper) ∧
    (∀ s : Bounds, applyUpper .nonfinite s = s) ∧
    (∀ s : Bounds, applyLower .nonfinite s = s) := by
  refine ⟨fun s c mn mx => rfl, fun s c mn mx => rfl, fun raw s => ?_,
    fun raw s => ?_, fun s => rfl, fun s => rfl⟩ <;> cases raw <;> rfl

/-- C3: a tick with finite price fields is included in the aggregate iff
its normalized closed interval overlaps the closed query interval, with
touching boundaries counting as overlap; in particular a tick with prices
90 and 110 is included for the query interval from 100 to 200 and excluded
for the one from 200 to 300. -/
theorem tick_inclusion_iff_overlap :
    (∀ (pl pu v lo hi : ℚ),
      tickOverlapsRange ⟨.fin pl, .fin pu, v⟩ lo hi = true ↔
        (min pl pu ≤ hi ∧ lo ≤ max pl pu)) ∧
    tickOverlapsRange ⟨.fin 90, .fin 110, 1⟩ 100 200 = true ∧
    tickOverlapsRange ⟨.fin 90, .fin 110, 1⟩ 200 300 = false ∧
    totalLiquidityInRange [⟨.fin 90, .fin 110, 5⟩] 100 200 = some 5 ∧
    totalLiquidityInRange [⟨.fin 90, .fin 110, 5⟩] 200 300 = some 0 := by
  refine ⟨fun pl pu v lo hi => ?_, by decide, by decide,
    by norm_num [totalLiquidityInRange, normalizeRange, tickOverlapsRange,
      min_def, max_def],
    by norm_num [totalLiquidityInRange, normalizeRange, tickOverlapsRange,
      min_def, max_def]⟩
  simp only [tickOverlapsRange, decide_eq_true_eq]
  tauto

/-- C2 counterexample: aggregating the empty tick set does not return the
number 0 as claimed; the code returns the unavailable value. -/
theorem total_liquidity_empty_returns_none :
    totalLiquidityInRange [] 0 1 = none := rfl

/-- The aggregation loop of totalLiquidityInRange leaves the accumulator
unchanged when no tick passes the overlap test. -/
theorem liquidityFold_no_overlap (lo hi : ℚ) :
    ∀ (ticks : List Tick), (∀ t ∈ ticks, tickOverlapsRange t lo hi = false) →
      ∀ acc : ℚ,
        ticks.foldl
          (fun sum t => if tickOverlapsRange t lo hi then sum + t.usdValue else sum)
          acc = acc
  | [], _, _ => rfl
  | t :: ts, h, acc => by
    have ht := h t (List.mem_cons_self t ts)
    simp only [List.foldl_cons, ht, Bool.false_eq_true, if_false]
    exact liquidityFold_no_overlap lo hi ts
      (fun x hx => h x (List.mem_cons_of_mem t hx)) acc

/-- C2 (amended): for a finite query interval with lower at most upper,
aggregating a nonempty tick set in which no tick overlaps the interval
returns the number 0; the empty tick set instead returns unavailable
(the counterexample theorem shows the empty case). -/
theorem total_liquidity_no_overlap_zero (ticks : List Tick) (lo hi : ℚ)
    (hne : ticks ≠ []) (hle : lo ≤ hi)
    (hnov : ∀ t ∈ ticks, tickOverlapsRange t lo hi = false) :
    totalLiquidityInRange ticks lo hi = some 0 := by
  have hEmp : ticks.isEmpty = false := by simpa [List.isEmpty_iff] using hne
  have hlo : min lo hi = lo := min_eq_left hle
  have hhi : max lo hi = hi := max_eq_right hle
  simp only [totalLiquidityInRange, normalizeRange, hlo, hhi, hEmp,
    Bool.false_eq_true, if_false]
  rw [liquidityFold_no_overlap lo hi ticks hnov 0]

/-- C2 witness: a single non-overlapping tick aggregates to the number 0. -/
theorem total_liquidity_no_overlap_zero_witness :
    totalLiquidityInRange [⟨.fin 90, .fin 110, 50⟩] 200 300 = some 0 :=
  total_liquidity_no_overlap_zero _ 200 300 (by decide) (by norm_num) (by decide)

/-- C6 counterexample: the legacy draggerPlugin of App.jsx does not clamp
the dragged lower bound to exactly the upper bound; dragging the lower
bound to 5 against an upper bound of 3 yields 3 - 0.01, a fixed epsilon
offset. -/
theorem draggerPlugin_fixed_epsilon_offset :
    (3 : ℚ) ≤ 5 ∧ draggerLowerMove 5 (some 3) = 3 - 1 / 100 ∧
    draggerLowerMove 5 (some 3) ≠ 3 := by
  refine ⟨by norm_num, ?_, ?_⟩ <;> norm_num [draggerLowerMove]

/-- C6 (amended): in the rangeAndCursorPlugin controller of utils.js, when
the axis-clamped drag candidate crosses the other bound, the dragged bound
is set to exactly the other bound's current value (candidate clamped to
the visible axis range first); the legacy draggerPlugin of App.jsx instead
offsets by a fixed 0.01 and applies no axis clamp. -/
theorem drag_crossing_clamps_to_exact_bound (s : Bounds)
    (cand axisMin axisMax : ℚ) :
    (s.upper ≤ clamp cand axisMin axisMax →
      (dragLowerMove s cand axisMin axisMax).lower = s.upper) ∧
    (clamp cand axisMin axisMax ≤ s.lower →
      (dragUpperMove s cand axisMin axisMax).upper = s.lower) := by
  constructor
  · intro h; simp [dragLowerMove, min_eq_right h]
  · intro h; simp [dragUpperMove, max_eq_right h]

/-- C6 witness: concrete crossing drags land exactly on the other bound. -/
theorem drag_crossing_clamps_to_exact_bound_witness :
    (dragLowerMove { lower := 0, upper := 3 } 5 0 10).lower = 3 ∧
    (dragUpperMove { lower := 4, upper := 10 } 1 0 10).upper = 4 :=
  ⟨(drag_crossing_clamps_to_exact_bound { lower := 0, upper := 3 } 5 0 10).1
      (by norm_num [clamp]),
   (drag_crossing_clamps_to_exact_bound { lower := 4, upper := 10 } 1 0 10).2
      (by norm_num [clamp])⟩

/-- Every single controller transition preserves the bound ordering, given
the price-series contract that seed and reset prices are non-negative. -/
theorem step_preserves_order (s : Bounds) (e : Ev)
    (hs : s.lower ≤ s.upper) (he : e.priceNonneg = true) :
    (step s e).lower ≤ (step s e).upper := by
  cases e with
  | dragUpper c mn mx => simp [step, dragUpperMove]
  | dragLower c mn mx => simp [step, dragLowerMove]
  | inputUpper raw =>
    cases raw with
    | fin n => simp [step, applyUpper]
    | nonfinite => simpa [step, applyUpper] using hs
  | inputLower raw =>
    cases raw with
    | fin n => simp [step, applyLower]
    | nonfinite => simpa [step, applyLower] using hs
  | seed p =>
    have hp : 0 ≤ p := of_decide_eq_true he
    simp only [step, seedBounds]
    nlinarith
  | reset cp =>
    cases cp with
    | none => simpa [step, handleReset] using hs
    | some p =>
      have hp : 0 ≤ p := of_decide_eq_true he
      simp only [step, handleReset]
      nlinarith

/-- C1: from the initial state, every sequence of bound-updating events
(drags, direct numeric input, seeding, reset) whose seed and reset prices
respect the price-series contract leaves the controller with
lower at most upper; since the sequence is arbitrary, the invariant holds
after every transition of every run. -/
theorem controller_order_invariant (evs : List Ev)
    (h : ∀ e ∈ evs, e.priceNonneg = true) :
    (run evs).lower ≤ (run evs).upper := by
  have H : ∀ (l : List Ev), (∀ e ∈ l, e.priceNonneg = true) → ∀ s : Bounds,
      s.lower ≤ s.upper →
      (l.foldl step s).lower ≤ (l.foldl step s).upper := by
    intro l
    induction l with
    | nil => intro _ s hs; simpa using hs
    | cons e t ih =>
      intro hl s hs
      simp only [List.foldl_cons]
      exact ih (fun x hx => hl x (List.mem_cons_of_mem e hx)) (step s e)
        (step_preserves_order s e hs (hl e (List.mem_cons_self e t)))
  exact H evs h initBounds (by norm_num [initBounds])

/-- C1 witness: a concrete run, seeding then dragging the lower bound far
above the axis, typing an upper value below the lower bound, and resetting. -/
theorem controller_order_invariant_witness :
    (∀ e ∈ [Ev.seed 100, Ev.dragLower 250 50 150, Ev.inputUpper (.fin 90),
      Ev.reset (some 200)], e.priceNonneg = true) ∧
    (run [Ev.seed 100, Ev.dragLower 250 50 150, Ev.inputUpper (.fin 90),
      Ev.reset (some 200)]).lower ≤
      (run [Ev.seed 100, Ev.dragLower 250 50 150, Ev.inputUpper (.fin 90),
        Ev.reset (some 200)]).upper :=
  ⟨by decide, controller_order_invariant _ (by decide)⟩

/-- C4: with all three preconditions met, the estimator returns exactly
weekly = deposit / liquidity * fees7, daily = weekly / 7 and
apr = fees7 / liquidity * 52 * 100. -/
theorem handleCalculate_exact_formulas (d l f : ℚ)
    (hd : 0 < d) (hl : 0 < l) (hf : 0 ≤ f) :
    handleCalculate (.fin d) (.fin l) (.fin f) =
      some { weeklyFeesUSD := d / l * f, dailyFeesUSD := d / l * f / 7,
             aprPercent := f / l * 52 * 100 } := by
  simp [handleCalculate, not_le.mpr hd, not_le.mpr hl, not_lt.mpr hf]

/-- C4 witness: estimate(1000, 10000, 700) yields weekly 70, daily 10 and
APR 364 exactly. -/
theorem handleCalculate_exact_formulas_witness :
    handleCalculate (.fin 1000) (.fin 10000) (.fin 700) =
      some { weeklyFeesUSD := 70, dailyFeesUSD := 10, aprPercent := 364 } := by
  rw [handleCalculate_exact_formulas 1000 10000 700 (by norm_num) (by norm_num)
    (by norm_num)]
  norm_num

/-- C5: any violation of the estimator preconditions (deposit non-finite
or nonpositive, liquidity non-finite or nonpositive, fees non-finite or
negative) makes the estimator return every field unavailable; the function
is total, so no input throws. -/
theorem handleCalculate_invalid_inputs_unavailable (deposit L fees7 : JsNum)
    (h : (∀ d, deposit = .fin d → d ≤ 0) ∨ (∀ l, L = .fin l → l ≤ 0) ∨
      (∀ f, fees7 = .fin f → f < 0)) :
    handleCalculate deposit L fees7 = none := by
  cases deposit with
  | nonfinite => rfl
  | fin d =>
    by_cases hd : d ≤ 0
    · simp [handleCalculate, hd]
    · rcases h with h1 | h2 | h3
      · exact absurd (h1 d rfl) hd
      · cases L with
        | nonfinite => simp [handleCalculate, hd]
        | fin l => simp [handleCalculate, hd, h2 l rfl]
      · cases L with
        | nonfinite => simp [handleCalculate, hd]
        | fin l =>
          by_cases hl : l ≤ 0
          · simp [handleCalculate, hd, hl]
          · cases fees7 with
            | nonfinite => simp [handleCalculate, hd, hl]
            | fin f => simp [handleCalculate, hd, hl, h3 f rfl]

/-- C5 witness: estimate(1000, 0, 700) yields every field unavailable. -/
theorem handleCalculate_invalid_inputs_unavailable_witness :
    handleCalculate (.fin 1000) (.fin 0) (.fin 700) = none :=
  handleCalculate_invalid_inputs_unavailable _ _ _
    (Or.inr (Or.inl (fun l hl =>
      le_of_eq (by injection hl with h; exact h.symm))))

/-- The load-time filter of feesSummary keeps a record built from finite
fields unchanged. -/
theorem filterMap_toFeeEntry_of_fin (fs : List FeeEntry) :
    (fs.map (fun r => DailyRec.mk (.fin r.ts) (.fin r.feesUSD))).filterMap
      toFeeEntry = fs := by
  induction fs with
  | nil => rfl
  | cons a t ih => simp [toFeeEntry, ih]

/-- The last record's feesUSD is the trailing-1 positional sum. -/
theorem getLast_eq_trailing_one :
    ∀ (l : List FeeEntry), l ≠ [] →
      (l.getLast?).map (·.feesUSD) = some (sumLastN l 1)
  | [], h => absurd rfl h
  | [a], _ => by simp [sumLastN]
  | a :: b :: u, _ => by
    have ih := getLast_eq_trailing_one (b :: u) (by simp)
    have hdrop : sumLastN (a :: b :: u) 1 = sumLastN (b :: u) 1 := by
      simp [sumLastN, List.length_cons, Nat.add_sub_cancel, List.drop_succ_cons]
    rw [List.getLast?_cons_cons, hdrop, ih]

/-- C7: on a fee-record sequence sorted ascending by timestamp (with both
fields finite), feesSummary returns every field unavailable for the empty
sequence, and otherwise each lastN field is the sum of the feesUSD of the
trailing N records by position, all records when fewer than N exist (the
lastN sums are over drop (length - N), the embedding of slice(-N)). -/
theorem feesSummary_trailing_sums (fs : List FeeEntry)
    (hsorted : fs.Pairwise (fun a b => a.ts ≤ b.ts)) :
    (fs = [] →
      feesSummary (fs.map (fun r => DailyRec.mk (.fin r.ts) (.fin r.feesUSD))) =
        ⟨none, none, none⟩) ∧
    (fs ≠ [] →
      feesSummary (fs.map (fun r => DailyRec.mk (.fin r.ts) (.fin r.feesUSD))) =
        ⟨some (sumLastN fs 1), some (sumLastN fs 7), some (sumLastN fs 30)⟩) := by
  constructor
  · rintro rfl; rfl
  · intro h
    have hne : fs.isEmpty = false := by simpa [List.isEmpty_iff] using h
    simp only [feesSummary, filterMap_toFeeEntry_of_fin, hne, Bool.false_eq_true,
      if_false]
    rw [getLast_eq_trailing_one fs h]

/-- C7 witness: a single record with fee 10 yields 10 for all three fields. -/
theorem feesSummary_trailing_sums_witness :
    feesSummary ([({ ts := 0, feesUSD := 10 } : FeeEntry)].map
      (fun r => DailyRec.mk (.fin r.ts) (.fin r.feesUSD))) =
      ⟨some 10, some 10, some 10⟩ := by
  rw [(feesSummary_trailing_sums [{ ts := 0, feesUSD := 10 }] (by simp)).2
    (by simp)]
  norm_num [sumLastN]

/-- The aggregation loop of totalLiquidityInRange is the sum of usdValue
over the ticks passing the overlap test, added to the accumulator. -/
theorem liquidityFold_eq_filter_sum (lo hi : ℚ) (ticks : List Tick) :
    ∀ acc : ℚ,
      ticks.foldl
        (fun sum t => if tickOverlapsRange t lo hi then sum + t.usdValue else sum)
        acc =
      acc + ((ticks.filter (fun t => tickOverlapsRange t lo hi)).map
        (·.usdValue)).sum := by
  induction ticks with
  | nil => intro acc; simp
  | cons t ts ih =>
    intro acc
    cases hov : tickOverlapsRange t lo hi with
    | true =>
      simp only [List.foldl_cons, List.filter_cons, hov, if_pos, List.map_cons,
        List.sum_cons, ih]
      ring
    | false => simp [List.foldl_cons, List.filter_cons, hov, ih]

/-- C8: the aggregate is invariant under any permutation of the tick
sequence. -/
theorem totalLiquidityInRange_perm_invariant (ticks ticks2 : List Tick)
    (lo hi : ℚ) (hperm : ticks.Perm ticks2) :
    totalLiquidityInRange ticks lo hi = totalLiquidityInRange ticks2 lo hi := by
  by_cases he : ticks = []
  · subst he
    have h2 : ticks2 = [] := hperm.symm.eq_nil
    subst h2; rfl
  · have he2 : ticks2 ≠ [] := fun h => he (by subst h; exact hperm.eq_nil)
    have hne : ticks.isEmpty = false := by simpa [List.isEmpty_iff] using he
    have hne2 : ticks2.isEmpty = false := by simpa [List.isEmpty_iff] using he2
    simp only [totalLiquidityInRange, normalizeRange, hne, hne2,
      Bool.false_eq_true, if_false]
    rw [liquidityFold_eq_filter_sum, liquidityFold_eq_filter_sum]
    rw [((hperm.filter
      (fun t => tickOverlapsRange t (min lo hi) (max lo hi))).map
        (·.usdValue)).sum_eq]

/-- C8 witness: swapping two concrete ticks leaves the aggregate equal. -/
theorem totalLiquidityInRange_perm_invariant_witness :
    totalLiquidityInRange [⟨.fin 90, .fin 110, 5⟩, ⟨.fin 150, .fin 160, 7⟩]
      100 200 =
    totalLiquidityInRange [⟨.fin 150, .fin 160, 7⟩, ⟨.fin 90, .fin 110, 5⟩]
      100 200 :=
  totalLiquidityInRange_perm_invariant _ _ 100 200 (List.Perm.swap _ _ _)

end UniswapTracker
